import Mathlib

/-!
# biglocalnews/usps, `fcc/counttiles/counttiles.c` and `fcc/test/read.c`

A shallow embedding of the two C functions of the repository and the
properties of them that the specification states.

* `CountTiles.count_tiles_r` / `CountTiles.count_tiles` embed
  `count_tiles_r` / `count_tiles` of `counttiles.c`.  The file system is an
  oracle `FS.opendir` from path strings to directory listings, so nothing is
  assumed about its shape (links and cycles are allowed).  A run yields the
  returned `int` together with the trace of library calls it made.  Writing
  more than 128 bytes into `new_path`, and overflowing the `int` counter, have
  no defined behaviour in C: the embedding stops there and the outcome has no
  return value.
* `ReadFile.readfile` embeds `readfile` of `read.c` over an oracle for
  `open`, `stat`, `malloc` and `read`.  Storing through a null pointer or
  outside the allocated block has no defined behaviour either.

Integer widths are those of the LP64 targets the code is built for: `int` has
32 bits, `off_t` and `size_t` have 64.  Paths and names are strings whose C
length is their UTF-8 byte size.
-/

set_option autoImplicit false
set_option maxRecDepth 4000

namespace CountTiles

/-! ## Data model -/

/-- Observable steps of a run of `count_tiles_r`.  `call` marks the entry into
`count_tiles_r` with its two arguments; the others are the library calls of the
source.  A directory stream is named by the path it was opened on (streams that
are open at the same time were opened on different paths, because the path of a
nested call is strictly longer than its parent's). -/
inductive Event where
  | call (path : String) (depth : Int)
  | opendir (path : String) (ok : Bool)
  | readdir (path : String) (name : Option String)
  | printf (text : String)
  | closedir (path : String)
  deriving DecidableEq

/-- The file system as `opendir`/`readdir` show it: `opendir path` is `none`
when `opendir` returns `NULL`, and otherwise the names `readdir` will yield on
that stream, in the order it yields them. -/
structure FS where
  opendir : String → Option (List String)

/-- Result of a run: `ret` is the returned `int`, `none` when the run wrote
past the end of `new_path` or overflowed the `int` counter `ctr` and so never
reaches a defined `return`; `trace` holds the steps performed up to the return
or up to that point. -/
structure Outcome where
  ret : Option Int
  trace : List Event
  deriving DecidableEq

/-- Largest value of a C `int`. -/
def int_max : Int := 2147483647

/-- Smallest value of a C `int`. -/
def int_min : Int := -2147483648

/-- Addition of two `int` values: `none` when the sum is not representable
(signed overflow has no defined behaviour). -/
def int_add (a b : Int) : Option Int :=
  if int_min ≤ a + b ∧ a + b ≤ int_max then some (a + b) else none

/-- The test `de->d_name[0] == '.'` (the first byte of an empty name is the
terminator, which is not a dot). -/
def hidden (name : String) : Bool :=
  match name.data with
  | c :: _ => c == '.'
  | [] => false

/-- Number of bytes `sprintf(new_path, "%s/%s", path, name)` stores: both
strings, the separator and the terminating zero byte. -/
def sprintf_bytes (path name : String) : Nat :=
  (path ++ "/" ++ name).utf8ByteSize + 1

/-- The statement `char new_path[128]; sprintf(new_path, "%s/%s", path, name)`:
the buffer's content when the output fits in its 128 bytes, `none` when the
write runs past its end. -/
def sprintf (path name : String) : Option String :=
  if sprintf_bytes path name ≤ 128 then some (path ++ "/" ++ name) else none

/-- Embedding of `count_tiles_r` (counttiles.c, lines 12-39).  The `while`
loop over `readdir` is the left fold over the listing; its state is `ctr` and
the trace so far.  `ctr++` and `ctr += ...` are `int` additions. -/
def count_tiles_r (fs : FS) (path : String) (depth : Int) : Outcome :=
  match fs.opendir path with
  | none =>
    { ret := some 0
      trace := [.call path depth, .opendir path false,
        .printf ("Failed to open " ++ path ++ "\n")] }
  | some entries =>
    let r := entries.foldl (fun (st : Outcome) (name : String) =>
      match st.ret with
      | none => st
      | some ctr =>
        let tr := st.trace ++ [.readdir path (some name)]
        if hidden name then { ret := some ctr, trace := tr }
        else if _h : depth ≥ 2 then { ret := int_add ctr 1, trace := tr }
        else
          match sprintf path name with
          | none => { ret := none, trace := tr }
          | some new_path =>
            let sub := count_tiles_r fs new_path (depth + 1)
            { ret := sub.ret.bind (int_add ctr), trace := tr ++ sub.trace })
      { ret := some 0, trace := [.call path depth, .opendir path true] }
    match r.ret with
    | none => r
    | some ctr => { ret := some ctr, trace := r.trace ++ [.readdir path none, .closedir path] }
termination_by (2 - depth).toNat
decreasing_by omega

/-- Embedding of `count_tiles` (counttiles.c, lines 41-45). -/
def count_tiles (fs : FS) (path : String) : Outcome :=
  count_tiles_r fs path 0

/-! ## Auxiliary definitions used to state and prove the properties -/

/-- One iteration of the `while` loop of `count_tiles_r`, with the recursive
call abstracted as `sub`. -/
def step (path : String) (depth : Int) (sub : String → Outcome) (st : Outcome)
    (name : String) : Outcome :=
  match st.ret with
  | none => st
  | some ctr =>
    if hidden name then { ret := some ctr, trace := st.trace ++ [.readdir path (some name)] }
    else if depth ≥ 2 then
      { ret := int_add ctr 1, trace := st.trace ++ [.readdir path (some name)] }
    else
      match sprintf path name with
      | none => { ret := none, trace := st.trace ++ [.readdir path (some name)] }
      | some new_path =>
        { ret := (sub new_path).ret.bind (int_add ctr)
          trace := st.trace ++ [.readdir path (some name)] ++ (sub new_path).trace }

/-- The code after the loop: the last `readdir`, `closedir(d)` and `return ctr`. -/
def finish (path : String) (r : Outcome) : Outcome :=
  match r.ret with
  | none => r
  | some ctr => { ret := some ctr, trace := r.trace ++ [.readdir path none, .closedir path] }

/-- The entries of a listing whose name does not begin with a dot. -/
def visible (entries : List String) : List String :=
  entries.filter (fun name => !hidden name)

/-- The path `parent/name`. -/
def child (path name : String) : String :=
  path ++ "/" ++ name

/-- The listing of `path`, empty when it cannot be opened. -/
def listing (fs : FS) (path : String) : List String :=
  (fs.opendir path).getD []

/-- Sum of a list of optional integers: `none` as soon as one summand is. -/
def sum_opt : List (Option Int) → Option Int
  | [] => some 0
  | o :: os => o.bind (fun a => (sum_opt os).map (a + ·))

/-- A mathematical total as an `int` result: `none` when it exceeds `int_max`. -/
def cap (total : Option Int) : Option Int :=
  total.bind (fun v => if v ≤ int_max then some v else none)

/-- What one non-hidden entry adds to `ctr`. -/
def contrib (path : String) (depth : Int) (sub : String → Outcome) (name : String) :
    Option Int :=
  if depth ≥ 2 then some 1 else (sprintf path name).bind (fun p => (sub p).ret)

/-- The value `count_tiles_r` returns, as a function of the number of levels
it still descends (`2 - depth`). -/
def tally (fs : FS) : Nat → String → Option Int
  | 0, path =>
    match fs.opendir path with
    | none => some 0
    | some entries => cap (some ((visible entries).length : Int))
  | n + 1, path =>
    match fs.opendir path with
    | none => some 0
    | some entries =>
      cap (sum_opt ((visible entries).map (fun name => (sprintf path name).bind (tally fs n))))

/-- Number of entries at the third level below `root`: the sum over all
`root/a/b` of the number of entries of `root/a/b`. -/
def third_level_entries (fs : FS) (root : String) : Int :=
  ((listing fs root).map (fun a =>
    ((listing fs (child root a)).map (fun b =>
      ((listing fs (child (child root a) b)).length : Int))).sum)).sum

/-- Replays a trace on the stack of open directory streams: a successful
`opendir` pushes its stream, `closedir` must close the stream on top of the
stack.  `none` when a `closedir` does not match. -/
def replay : List Event → List String → Option (List String)
  | [], open_streams => some open_streams
  | .opendir path true :: rest, open_streams => replay rest (path :: open_streams)
  | .closedir path :: rest, open_streams =>
    match open_streams with
    | top :: below => if path = top then replay rest below else none
    | [] => none
  | _ :: rest, open_streams => replay rest open_streams

/-- Two `opendir` results that differ at most in the order of the entries. -/
def perm_listing : Option (List String) → Option (List String) → Prop
  | none, none => True
  | some a, some b => a.Perm b
  | _, _ => False

/-- The worlds `fs` and `fs'` have the same non-hidden entries in `path` and in
every directory reached from it through at most `n` non-hidden names. -/
def same_visible (fs fs' : FS) : Nat → String → Prop
  | 0, path => (fs'.opendir path).map visible = (fs.opendir path).map visible
  | n + 1, path =>
    (fs'.opendir path).map visible = (fs.opendir path).map visible ∧
      ∀ name ∈ visible (listing fs path), same_visible fs fs' n (child path name)

/-- The world `fs` with every entry whose name begins with a dot removed from
every listing. -/
def without_hidden (fs : FS) : FS where
  opendir p := (fs.opendir p).map visible

/-- The world `fs` with `path` turned into an empty directory. -/
def with_empty_dir (fs : FS) (path : String) : FS where
  opendir p := if p = path then some [] else fs.opendir p

/-- The tree of the specification's scenario below `root`:
`root/0/0/0`, `root/0/0/1`, `root/0/1/0`. -/
def scenario (root : String) : FS where
  opendir p :=
    if p = root then some ["0"]
    else if p = child root "0" then some ["0", "1"]
    else if p = child (child root "0") "0" then some ["0", "1"]
    else if p = child (child root "0") "1" then some ["0"]
    else none

/-- A root path of 126 bytes. -/
def long_root : String :=
  String.mk (List.replicate 126 'r')

/-- A file name of 126 bytes. -/
def long_name : String :=
  String.mk (List.replicate 126 'f')

/-- The scenario tree below `root`, every listing enumerated in the opposite order. -/
def scenario_reversed : FS where
  opendir p :=
    if p = "root" then some ["0"]
    else if p = "root/0" then some ["1", "0"]
    else if p = "root/0/0" then some ["1", "0"]
    else if p = "root/0/1" then some ["0"]
    else none

/-- The scenario tree below `root` with dot entries added at every level, one
of them a directory `root/.git` with content of its own. -/
def scenario_dotted : FS where
  opendir p :=
    if p = "root" then some [".", "..", ".git", "0"]
    else if p = "root/.git" then some [".", "..", "x"]
    else if p = "root/.git/x" then some [".", "..", "y", "z"]
    else if p = "root/0" then some [".", "0", ".hidden", "1", ".."]
    else if p = "root/0/0" then some [".", "..", "0", ".DS_Store", "1"]
    else if p = "root/0/1" then some ["0", ".", ".."]
    else none

/-- A tree `r/0/0/a`, `r/0/0/b` whose root also holds a regular file with a
name of 126 bytes. -/
def tree_with_long_file : FS where
  opendir p :=
    if p = "r" then some [long_name, "0"]
    else if p = "r/0" then some ["0"]
    else if p = "r/0/0" then some ["a", "b"]
    else none

/-- A tree `r/0/0/a`, `r/0/0/b` whose root also holds a regular file `README`. -/
def tree_with_file : FS where
  opendir p :=
    if p = "r" then some ["README", "0"]
    else if p = "r/0" then some ["0"]
    else if p = "r/0/0" then some ["a", "b"]
    else none

/-- A directory `tiles` with one subdirectory whose name has 126 bytes. -/
def tree_with_long_dir : FS where
  opendir p :=
    if p = "tiles" then some [long_name]
    else if p = child "tiles" long_name then some []
    else none

end CountTiles

namespace ReadFile

/-! ## Data model of `readfile` -/

/-- Observable steps of a run of `readfile`: the system and library calls of
the source with their arguments, and the results that later calls depend on
(the descriptor, whether `stat` succeeded, whether `malloc` returned a block). -/
inductive Event where
  | sys_open (fn : String) (fp : Int)
  | sys_stat (fn : String) (ok : Bool)
  | sys_malloc (size : Nat) (ok : Bool)
  | sys_read (fp : Int) (count : Nat)
  | sys_close (fp : Int)
  deriving DecidableEq

/-- The environment of `readfile`.
* `open_ret fn`: the descriptor `open(fn, O_RDONLY)` returns, `none` for `-1`;
* `stat_ret fn`: the `st_size` that `stat(fn, &sb)` stores, `none` when `stat`
  fails and leaves `sb` as it was;
* `sb_st_size`: the indeterminate value of `sb.st_size` before `stat` (the
  source does not initialise `sb`);
* `malloc_ok size`: whether `malloc(size)` returns a block rather than `NULL`;
* `heap i`: the indeterminate byte at offset `i` of the block `malloc` returns;
* `read_ret fd count`: the bytes `read(fd, s, count)` stores at the start of
  `s` (at most `count` of them are stored), `none` when it returns `-1`. -/
structure World where
  open_ret : String → Option Nat
  stat_ret : String → Option Nat
  sb_st_size : Int
  malloc_ok : Nat → Bool
  heap : Nat → UInt8
  read_ret : Nat → Nat → Option (List UInt8)

/-- Result of a run: `ret` is the content of the returned buffer, all
`st_size + 1` bytes of it; `none` when the run has no defined `return`, because
`sb.st_size + 1` overflows `off_t` or because the terminator is stored through
a null pointer or outside the allocated block.  `trace` holds the calls made up
to the return or up to that point. -/
structure Outcome where
  ret : Option (List UInt8)
  trace : List Event

/-- Largest value of an `off_t`. -/
def off_t_max : Int := 9223372036854775807

/-- Conversion of an `off_t` value to `size_t`. -/
def to_size_t (x : Int) : Nat :=
  (x % 18446744073709551616).toNat

/-- The call `malloc(size)`: the fresh block with its indeterminate content, or
`none` for `NULL`.  A request of 2^63 bytes or more always fails. -/
def malloc (w : World) (size : Nat) : Option (List UInt8) :=
  if size < 9223372036854775808 ∧ w.malloc_ok size = true then
    some ((List.range size).map w.heap)
  else none

/-- The size `readfile` works with: the one `stat` stored, or whatever `sb`
held when `stat` failed. -/
def used_size (w : World) (fn : String) : Int :=
  match w.stat_ret fn with
  | some size => (size : Int)
  | none => w.sb_st_size

/-- Embedding of `readfile` (read.c, lines 7-23).  No return value of `open`,
`stat`, `malloc` or `read` is inspected, as in the source. -/
def readfile (w : World) (fn : String) : Outcome :=
  let fp : Int :=
    match w.open_ret fn with
    | some fd => (fd : Int)
    | none => -1
  let st_size : Int :=
    match w.stat_ret fn with
    | some size => (size : Int)
    | none => w.sb_st_size
  let tr : List Event := [.sys_open fn fp, .sys_stat fn (w.stat_ret fn).isSome]
  if off_t_max ≤ st_size then { ret := none, trace := tr }
  else
    let s := malloc w (to_size_t (st_size + 1))
    let tr : List Event :=
      tr ++ [.sys_malloc (to_size_t (st_size + 1)) s.isSome, .sys_read fp (to_size_t st_size)]
    match s with
    | none => { ret := none, trace := tr }
    | some block =>
      if st_size < 0 then { ret := none, trace := tr }
      else
        let n := st_size.toNat
        let got : Option (List UInt8) :=
          match w.open_ret fn with
          | some fd => (w.read_ret fd n).map (List.take n)
          | none => none
        let block :=
          match got with
          | some bytes => bytes ++ block.drop bytes.length
          | none => block
        { ret := some (block.set n 0), trace := tr ++ [.sys_close fp] }

/-- A file `abc.txt` holding the three bytes `abc`, opened as descriptor 3. -/
def abc_world : World where
  open_ret fn := if fn = "abc.txt" then some 3 else none
  stat_ret fn := if fn = "abc.txt" then some 3 else none
  sb_st_size := 0
  malloc_ok _ := true
  heap _ := 0xAA
  read_ret fd count := if fd = 3 then some ([97, 98, 99].take count) else none

/-- An empty file `empty`, opened as descriptor 3. -/
def empty_world : World where
  open_ret fn := if fn = "empty" then some 3 else none
  stat_ret fn := if fn = "empty" then some 0 else none
  sb_st_size := 7
  malloc_ok _ := true
  heap _ := 0xAA
  read_ret fd _ := if fd = 3 then some [] else none

/-- The empty file `empty` again, in an environment that is out of memory:
every `malloc` returns `NULL`. -/
def out_of_memory_world : World where
  open_ret fn := if fn = "empty" then some 3 else none
  stat_ret fn := if fn = "empty" then some 0 else none
  sb_st_size := 7
  malloc_ok _ := false
  heap _ := 0xAA
  read_ret fd _ := if fd = 3 then some [] else none

end ReadFile

namespace CountTiles

/-! ## Unfolding the embedding -/

theorem count_tiles_r_unfold (fs : FS) (path : String) (depth : Int) :
    count_tiles_r fs path depth =
      match fs.opendir path with
      | none =>
        { ret := some 0
          trace := [.call path depth, .opendir path false,
            .printf ("Failed to open " ++ path ++ "\n")] }
      | some entries =>
        finish path (entries.foldl (step path depth (fun p => count_tiles_r fs p (depth + 1)))
          { ret := some 0, trace := [.call path depth, .opendir path true] }) := by
  rw [count_tiles_r]
  cases fs.opendir path with
  | none => rfl
  | some entries =>
    simp only [finish, step, dite_eq_ite]
    rfl

theorem count_tiles_r_of_closed (fs : FS) (path : String) (depth : Int)
    (h : fs.opendir path = none) :
    count_tiles_r fs path depth =
      { ret := some 0
        trace := [.call path depth, .opendir path false,
          .printf ("Failed to open " ++ path ++ "\n")] } := by
  rw [count_tiles_r_unfold, h]

theorem count_tiles_r_of_open (fs : FS) (path : String) (depth : Int) (entries : List String)
    (h : fs.opendir path = some entries) :
    count_tiles_r fs path depth =
      finish path (entries.foldl (step path depth (fun p => count_tiles_r fs p (depth + 1)))
        { ret := some 0, trace := [.call path depth, .opendir path true] }) := by
  rw [count_tiles_r_unfold, h]

theorem sprintf_eq_child {path name p : String} (h : sprintf path name = some p) :
    p = child path name := by
  unfold sprintf at h
  split at h
  · exact (Option.some.inj h).symm
  · cases h

/-! ## The `int` counter -/

theorem int_add_of_fits (a b : Int) (ha : 0 ≤ a) (hb : 0 ≤ b) (h : a + b ≤ int_max) :
    int_add a b = some (a + b) := by
  have h0 : int_min ≤ a + b := by
    have : int_min ≤ 0 := by decide
    omega
  simp [int_add, h0, h]

theorem int_add_of_overflow (a b : Int) (h : int_max < a + b) : int_add a b = none := by
  have : ¬ a + b ≤ int_max := by omega
  simp [int_add, this]

theorem sum_opt_nonneg (l : List (Option Int)) (h : ∀ o ∈ l, ∀ v, o = some v → 0 ≤ v) :
    ∀ s, sum_opt l = some s → 0 ≤ s := by
  induction l with
  | nil =>
    intro s hs
    simp only [sum_opt, Option.some.injEq] at hs
    omega
  | cons o l ih =>
    intro s hs
    cases o with
    | none => simp [sum_opt] at hs
    | some a =>
      cases hl : sum_opt l with
      | none => simp [sum_opt, hl] at hs
      | some b =>
        simp only [sum_opt, hl, Option.some_bind, Option.map_some', Option.some.injEq] at hs
        have ha := h (some a) (List.mem_cons_self _ _) a rfl
        have hb := ih (fun o ho => h o (List.mem_cons_of_mem _ ho)) b hl
        omega

theorem cap_some_of_le (v : Int) (h : v ≤ int_max) : cap (some v) = some v := by
  simp [cap, h]

theorem cap_some_of_gt (v : Int) (h : int_max < v) : cap (some v) = none := by
  have : ¬ v ≤ int_max := by omega
  simp [cap, this]

theorem cap_bounds (t : Option Int) (v : Int) (h : cap t = some v) : t = some v ∧ v ≤ int_max := by
  cases t with
  | none => simp [cap] at h
  | some x =>
    by_cases hx : x ≤ int_max
    · rw [cap_some_of_le x hx] at h
      cases h
      exact ⟨rfl, hx⟩
    · rw [cap_some_of_gt x (by omega)] at h
      cases h

/-! ## The loop -/

theorem foldl_step_of_overrun (path : String) (depth : Int) (sub : String → Outcome)
    (entries : List String) (st : Outcome) (h : st.ret = none) :
    entries.foldl (step path depth sub) st = st := by
  induction entries with
  | nil => rfl
  | cons name rest ih =>
    have hs : step path depth sub st name = st := by simp [step, h]
    rw [List.foldl_cons, hs, ih]

theorem contrib_of_hidden_false (path : String) (depth : Int) (sub : String → Outcome)
    (name : String) (st : Outcome) (c : Int) (hst : st.ret = some c)
    (hh : ¬ hidden name = true) :
    (step path depth sub st name).ret = (contrib path depth sub name).bind (int_add c) := by
  by_cases hd : depth ≥ 2
  · simp [step, hst, hh, hd, contrib]
  · cases hp : sprintf path name with
    | none => simp [step, hst, hh, hd, hp, contrib]
    | some p => simp [step, hst, hh, hd, hp, contrib]

theorem foldl_step_ret (path : String) (depth : Int) (sub : String → Outcome)
    (hsub : ∀ name v, contrib path depth sub name = some v → 0 ≤ v)
    (entries : List String) :
    ∀ (st : Outcome) (c : Int), st.ret = some c → 0 ≤ c → c ≤ int_max →
      (entries.foldl (step path depth sub) st).ret =
        cap ((sum_opt ((visible entries).map (contrib path depth sub))).map (c + ·)) := by
  induction entries with
  | nil =>
    intro st c hst _ hc
    simp [visible, sum_opt, hst, cap, hc]
  | cons name rest ih =>
    intro st c hst hc0 hc
    rw [List.foldl_cons]
    by_cases hh : hidden name = true
    · have hs : (step path depth sub st name).ret = some c := by simp [step, hst, hh]
      rw [ih _ c hs hc0 hc]
      simp [visible, hh]
    · have hv : visible (name :: rest) = name :: visible rest := by simp [visible, hh]
      have hs := contrib_of_hidden_false path depth sub name st c hst hh
      rw [hv, List.map_cons]
      cases hk : contrib path depth sub name with
      | none =>
        rw [hk] at hs
        rw [foldl_step_of_overrun _ _ _ _ _ (by simpa using hs)]
        simp [hs, sum_opt, cap]
      | some v =>
        have hv0 := hsub name v hk
        rw [hk] at hs
        simp only [Option.some_bind] at hs
        by_cases hfit : c + v ≤ int_max
        · rw [int_add_of_fits c v hc0 hv0 hfit] at hs
          rw [ih _ (c + v) hs (by omega) hfit]
          cases hrest : sum_opt ((visible rest).map (contrib path depth sub)) with
          | none => simp [sum_opt, hrest]
          | some r => simp [sum_opt, hrest, add_assoc]
        · rw [int_add_of_overflow c v (by omega)] at hs
          rw [foldl_step_of_overrun _ _ _ _ _ hs, hs]
          cases hrest : sum_opt ((visible rest).map (contrib path depth sub)) with
          | none => simp [sum_opt, hrest, cap]
          | some r =>
            have hr0 : 0 ≤ r := by
              apply sum_opt_nonneg _ _ r hrest
              intro o ho w hw
              obtain ⟨nm, _, hnm⟩ := List.mem_map.1 ho
              exact hsub nm w (by rw [hnm, hw])
            have : int_max < c + (v + r) := by omega
            simp only [sum_opt, hrest, Option.some_bind, Option.map_some']
            exact (cap_some_of_gt _ this).symm

theorem finish_ret (path : String) (r : Outcome) : (finish path r).ret = r.ret := by
  unfold finish
  cases h : r.ret <;> simp [h]

theorem sum_opt_ones {α : Type} (l : List α) :
    sum_opt (l.map (fun _ => some 1)) = some (l.length : Int) := by
  induction l with
  | nil => rfl
  | cons a l ih =>
    simp only [List.map_cons, sum_opt, ih, List.length_cons]
    simp [add_comm]

theorem tally_range (fs : FS) :
    ∀ (n : Nat) (path : String) (v : Int), tally fs n path = some v → 0 ≤ v ∧ v ≤ int_max := by
  intro n
  induction n with
  | zero =>
    intro path v h
    unfold tally at h
    cases hp : fs.opendir path with
    | none =>
      rw [hp] at h
      cases h
      exact ⟨le_refl _, by decide⟩
    | some entries =>
      rw [hp] at h
      obtain ⟨h1, h2⟩ := cap_bounds _ _ h
      cases h1
      exact ⟨Int.natCast_nonneg _, h2⟩
  | succ n ih =>
    intro path v h
    unfold tally at h
    cases hp : fs.opendir path with
    | none =>
      rw [hp] at h
      cases h
      exact ⟨le_refl _, by decide⟩
    | some entries =>
      rw [hp] at h
      obtain ⟨h1, h2⟩ := cap_bounds _ _ h
      refine ⟨?_, h2⟩
      apply sum_opt_nonneg _ _ v h1
      intro o ho w hw
      obtain ⟨nm, _, hnm⟩ := List.mem_map.1 ho
      rw [hw] at hnm
      cases hs : sprintf path nm with
      | none => rw [hs] at hnm; cases hnm
      | some p =>
        rw [hs] at hnm
        exact (ih p w hnm).1

theorem ret_eq_tally (fs : FS) :
    ∀ (n : Nat) (path : String) (depth : Int), (2 - depth).toNat = n →
      (count_tiles_r fs path depth).ret = tally fs n path := by
  intro n
  induction n with
  | zero =>
    intro path depth hn
    have hd : depth ≥ 2 := by omega
    rw [count_tiles_r_unfold]
    cases h : fs.opendir path with
    | none => simp [tally, h]
    | some entries =>
      have hc : contrib path depth (fun p => count_tiles_r fs p (depth + 1)) =
          fun _ => some 1 := by
        funext name
        simp [contrib, hd]
      simp only [finish_ret, tally, h]
      rw [foldl_step_ret path depth _ _ entries _ 0 rfl (le_refl _) (by decide), hc,
        sum_opt_ones]
      · simp
      · intro name v hv
        rw [hc] at hv
        cases hv
        decide
  | succ n ih =>
    intro path depth hn
    have hd : ¬ depth ≥ 2 := by omega
    rw [count_tiles_r_unfold]
    cases h : fs.opendir path with
    | none => simp [tally, h]
    | some entries =>
      have hc : contrib path depth (fun p => count_tiles_r fs p (depth + 1)) =
          fun name => (sprintf path name).bind (tally fs n) := by
        funext name
        simp only [contrib, hd, if_false]
        congr 1
        funext p
        exact ih p (depth + 1) (by omega)
      simp only [finish_ret, tally, h]
      rw [foldl_step_ret path depth _ _ entries _ 0 rfl (le_refl _) (by decide), hc]
      · congr 1
        cases sum_opt (List.map (fun name => (sprintf path name).bind (tally fs n))
          (visible entries)) <;> simp
      · intro name v hv
        rw [hc] at hv
        simp only at hv
        cases hs : sprintf path name with
        | none => rw [hs] at hv; cases hv
        | some p =>
          rw [hs] at hv
          exact (tally_range fs n p v hv).1

theorem count_tiles_ret (fs : FS) (root : String) :
    (count_tiles fs root).ret = tally fs 2 root :=
  ret_eq_tally fs 2 root 0 (by decide)

theorem count_tiles_r_range (fs : FS) (path : String) (depth : Int) (v : Int)
    (h : (count_tiles_r fs path depth).ret = some v) : 0 ≤ v ∧ v ≤ int_max := by
  rw [ret_eq_tally fs (2 - depth).toNat path depth rfl] at h
  exact tally_range fs _ path v h

/-! ## Order of enumeration -/

theorem sum_opt_perm {l l' : List (Option Int)} (h : l.Perm l') : sum_opt l = sum_opt l' := by
  induction h with
  | nil => rfl
  | cons x _ ih => simp only [sum_opt, ih]
  | swap x y l =>
    cases x <;> cases y <;> cases hs : sum_opt l <;> simp [sum_opt, hs, add_left_comm]
  | trans _ _ ih₁ ih₂ => exact ih₁.trans ih₂

theorem visible_perm {a b : List String} (h : a.Perm b) : (visible a).Perm (visible b) :=
  List.Perm.filter _ h

theorem tally_perm (fs fs' : FS) (h : ∀ p, perm_listing (fs.opendir p) (fs'.opendir p)) :
    ∀ (n : Nat) (path : String), tally fs' n path = tally fs n path := by
  intro n
  induction n with
  | zero =>
    intro path
    have hp := h path
    cases h1 : fs.opendir path <;> cases h2 : fs'.opendir path <;>
      simp only [h1, h2, perm_listing] at hp <;> simp only [tally, h1, h2]
    rw [(visible_perm hp).length_eq]
  | succ n ih =>
    intro path
    have hp := h path
    cases h1 : fs.opendir path <;> cases h2 : fs'.opendir path <;>
      simp only [h1, h2, perm_listing] at hp <;> simp only [tally, h1, h2]
    have hf : (fun name => (sprintf path name).bind (tally fs' n)) =
        fun name => (sprintf path name).bind (tally fs n) := by
      funext name
      congr 1
      funext p
      exact ih p
    rw [hf]
    exact congrArg cap (sum_opt_perm ((visible_perm hp).symm.map _))

/-! ## Hidden entries -/

theorem visible_listing (fs : FS) (path : String) (entries : List String)
    (h : fs.opendir path = some entries) : visible (listing fs path) = visible entries := by
  simp [listing, h]

theorem sum_opt_congr {α : Type} (l : List α) (f g : α → Option Int)
    (h : ∀ a ∈ l, f a = g a) : sum_opt (l.map f) = sum_opt (l.map g) := by
  rw [List.map_congr_left h]

theorem tally_same_visible (fs fs' : FS) :
    ∀ (n : Nat) (path : String), same_visible fs fs' n path →
      tally fs' n path = tally fs n path := by
  intro n
  induction n with
  | zero =>
    intro path hs
    simp only [same_visible] at hs
    cases h1 : fs.opendir path <;> cases h2 : fs'.opendir path <;>
      simp only [h1, h2, Option.map_some', Option.map_none', Option.some.injEq] at hs <;>
      simp only [tally, h1, h2]
    · cases hs
    · cases hs
    · rw [hs]
  | succ n ih =>
    intro path hs
    obtain ⟨hs0, hs1⟩ := hs
    cases h1 : fs.opendir path <;> cases h2 : fs'.opendir path <;>
      simp only [h1, h2, Option.map_some', Option.map_none', Option.some.injEq] at hs0 <;>
      simp only [tally, h1, h2]
    · cases hs0
    · cases hs0
    · rename_i es es'
      rw [hs0]
      apply congrArg cap
      apply sum_opt_congr
      intro name hname
      cases hp : sprintf path name with
      | none => rfl
      | some p =>
        simp only [Option.some_bind]
        have hc := sprintf_eq_child hp
        subst hc
        apply ih
        apply hs1
        rw [visible_listing fs path es h1]
        exact hname

/-! ## Dependence on the file system -/

theorem replay_append (a b : List Event) :
    ∀ s, replay (a ++ b) s = (replay a s).bind (replay b) := by
  induction a with
  | nil => intro s; simp [replay]
  | cons e rest ih =>
    intro s
    cases e with
    | call p d => simp [replay, ih]
    | opendir p ok => cases ok <;> simp [replay, ih]
    | readdir p n => simp [replay, ih]
    | printf t => simp [replay, ih]
    | closedir p =>
      cases s with
      | nil => simp [replay]
      | cons top below =>
        by_cases hp : p = top
        · simp [replay, hp, ih]
        · simp [replay, hp]

theorem foldl_step_returns (path : String) (depth : Int) (sub : String → Outcome)
    (entries : List String) (st : Outcome)
    (h : (entries.foldl (step path depth sub) st).ret ≠ none) : st.ret ≠ none := by
  intro hst
  rw [foldl_step_of_overrun path depth sub entries st hst] at h
  exact h hst

theorem foldl_step_replay (path : String) (depth : Int) (sub : String → Outcome)
    (hsub : ¬ depth ≥ 2 → ∀ p, (sub p).ret ≠ none → ∀ s, replay (sub p).trace s = some s)
    (entries : List String) :
    ∀ (st : Outcome) (s s' : List String), replay st.trace s = some s' →
      (entries.foldl (step path depth sub) st).ret ≠ none →
      replay (entries.foldl (step path depth sub) st).trace s = some s' := by
  induction entries with
  | nil => intro st s s' h _; exact h
  | cons name rest ih =>
    intro st s s' h hret
    rw [List.foldl_cons] at hret ⊢
    have hstep := foldl_step_returns path depth sub rest _ hret
    apply ih _ s s' _ hret
    unfold step at hstep ⊢
    cases hst : st.ret with
    | none =>
      rw [hst] at hstep
      exact absurd hst hstep
    | some c =>
      rw [hst] at hstep
      simp only at hstep ⊢
      split
      · rw [replay_append, h]; rfl
      · split
        · rw [replay_append, h]; rfl
        · rename_i hnd
          split
          · rename_i hp
            rw [if_neg (by assumption), if_neg hnd, hp] at hstep
            exact absurd rfl hstep
          · rename_i p hp
            rw [if_neg (by assumption), if_neg hnd, hp] at hstep
            simp only at hstep
            have hsome : (sub p).ret ≠ none := by
              intro hn
              rw [hn] at hstep
              exact hstep rfl
            rw [replay_append, replay_append, h]
            simp only [Option.some_bind]
            exact hsub hnd p hsome s'

theorem count_tiles_r_balanced (fs : FS) :
    ∀ (n : Nat) (path : String) (depth : Int), (2 - depth).toNat = n →
      (count_tiles_r fs path depth).ret ≠ none →
      ∀ s, replay (count_tiles_r fs path depth).trace s = some s := by
  intro n
  induction n with
  | zero =>
    intro path depth hn hret s
    have hd : depth ≥ 2 := by omega
    rw [count_tiles_r_unfold] at hret ⊢
    cases h : fs.opendir path with
    | none => simp [replay]
    | some entries =>
      rw [h] at hret
      simp only at hret ⊢
      rw [finish_ret] at hret
      have hfold := foldl_step_replay path depth (fun p => count_tiles_r fs p (depth + 1))
        (fun hnd => absurd hd hnd) entries
        { ret := some 0, trace := [Event.call path depth, Event.opendir path true] }
        s (path :: s) (by simp [replay]) hret
      unfold finish
      cases hr : (entries.foldl (step path depth (fun p => count_tiles_r fs p (depth + 1)))
        { ret := some 0, trace := [Event.call path depth, Event.opendir path true] }).ret with
      | none => exact absurd hr hret
      | some c =>
        simp only
        rw [replay_append, hfold]
        simp [replay]
  | succ n ih =>
    intro path depth hn hret s
    rw [count_tiles_r_unfold] at hret ⊢
    cases h : fs.opendir path with
    | none => simp [replay]
    | some entries =>
      rw [h] at hret
      simp only at hret ⊢
      rw [finish_ret] at hret
      have hfold := foldl_step_replay path depth (fun p => count_tiles_r fs p (depth + 1))
        (fun _ p hp => ih p (depth + 1) (by omega) hp) entries
        { ret := some 0, trace := [Event.call path depth, Event.opendir path true] }
        s (path :: s) (by simp [replay]) hret
      unfold finish
      cases hr : (entries.foldl (step path depth (fun p => count_tiles_r fs p (depth + 1)))
        { ret := some 0, trace := [Event.call path depth, Event.opendir path true] }).ret with
      | none => exact absurd hr hret
      | some c =>
        simp only
        rw [replay_append, hfold]
        simp [replay]

theorem count_tiles_r_balanced_any (fs : FS) (path : String) (depth : Int)
    (h : (count_tiles_r fs path depth).ret ≠ none) :
    ∀ s, replay (count_tiles_r fs path depth).trace s = some s :=
  count_tiles_r_balanced fs (2 - depth).toNat path depth rfl h

theorem count_tiles_r_trace_of_return (fs : FS) (path : String) (depth : Int)
    (entries : List String) (hopen : fs.opendir path = some entries)
    (hret : (count_tiles_r fs path depth).ret ≠ none) :
    ∃ mid, (count_tiles_r fs path depth).trace =
      Event.call path depth :: Event.opendir path true ::
        (mid ++ [Event.readdir path none, Event.closedir path]) := by
  rw [count_tiles_r_of_open fs path depth entries hopen] at hret ⊢
  rw [finish_ret] at hret
  have hpre : ∀ (es : List String) (st : Outcome),
      (∃ mid, st.trace = Event.call path depth :: Event.opendir path true :: mid) →
      ∃ mid, (es.foldl (step path depth (fun p => count_tiles_r fs p (depth + 1))) st).trace =
        Event.call path depth :: Event.opendir path true :: mid := by
    intro es
    induction es with
    | nil => intro st h; exact h
    | cons name rest ih =>
      intro st h
      rw [List.foldl_cons]
      apply ih
      obtain ⟨mid, hmid⟩ := h
      unfold step
      cases st.ret with
      | none => exact ⟨mid, hmid⟩
      | some c =>
        simp only
        split
        · exact ⟨mid ++ [Event.readdir path (some name)], by simp [hmid]⟩
        · split
          · exact ⟨mid ++ [Event.readdir path (some name)], by simp [hmid]⟩
          · split
            · exact ⟨mid ++ [Event.readdir path (some name)], by simp [hmid]⟩
            · exact ⟨mid ++ [Event.readdir path (some name)] ++ _, by simp [hmid]; rfl⟩
  obtain ⟨mid, hmid⟩ := hpre entries
    { ret := some 0, trace := [Event.call path depth, Event.opendir path true] } ⟨[], rfl⟩
  unfold finish
  cases hr : (entries.foldl (step path depth (fun p => count_tiles_r fs p (depth + 1)))
    { ret := some 0, trace := [Event.call path depth, Event.opendir path true] }).ret with
  | none => exact absurd hr hret
  | some c =>
    refine ⟨mid, ?_⟩
    simp only
    rw [hmid]
    rfl

/-! ## Overrunning `new_path` -/

theorem sprintf_of_fits (path name : String) (h : sprintf_bytes path name ≤ 128) :
    sprintf path name = some (path ++ "/" ++ name) := by
  simp [sprintf, h]

theorem sprintf_of_overrun (path name : String) (h : 128 < sprintf_bytes path name) :
    sprintf path name = none := by
  have : ¬ sprintf_bytes path name ≤ 128 := by omega
  simp [sprintf, this]

theorem count_tiles_r_overrun_first (fs : FS) (path : String) (depth : Int) (name : String)
    (rest : List String) (h : fs.opendir path = some (name :: rest))
    (hh : hidden name = false) (hd : depth < 2) (hs : sprintf path name = none) :
    count_tiles_r fs path depth =
      { ret := none
        trace := [Event.call path depth, Event.opendir path true,
          Event.readdir path (some name)] } := by
  have hnd : ¬ depth ≥ 2 := by omega
  rw [count_tiles_r_of_open fs path depth _ h, List.foldl_cons]
  have hstep : step path depth (fun p => count_tiles_r fs p (depth + 1))
      { ret := some 0, trace := [Event.call path depth, Event.opendir path true] } name =
      { ret := none
        trace := [Event.call path depth, Event.opendir path true,
          Event.readdir path (some name)] } := by
    simp [step, hh, hnd, hs]
  rw [hstep, foldl_step_of_overrun _ _ _ _ _ rfl]
  rfl

theorem sum_opt_somes {α : Type} (l : List α) (f : α → Option Int) (g : α → Int)
    (h : ∀ a ∈ l, f a = some (g a)) : sum_opt (l.map f) = some ((l.map g).sum) := by
  induction l with
  | nil => rfl
  | cons a l ih =>
    have ha := h a (List.mem_cons_self a l)
    have hl := ih (fun b hb => h b (List.mem_cons_of_mem a hb))
    simp [sum_opt, ha, hl]

theorem visible_of_no_dot (entries : List String) (h : ∀ a ∈ entries, hidden a = false) :
    visible entries = entries := by
  unfold visible
  rw [List.filter_eq_self]
  intro a ha
  simp [h a ha]

theorem tally_zero_listing (fs : FS) (path : String)
    (h : ∀ c ∈ listing fs path, hidden c = false)
    (hfit : ((listing fs path).length : Int) ≤ int_max) :
    tally fs 0 path = some ((listing fs path).length : Int) := by
  unfold tally
  cases hp : fs.opendir path with
  | none => simp [listing, hp]
  | some entries =>
    have hl : listing fs path = entries := by simp [listing, hp]
    rw [hl] at h hfit ⊢
    simp only
    rw [visible_of_no_dot entries h]
    exact cap_some_of_le _ hfit

theorem tally_succ_listing (fs : FS) (n : Nat) (path : String) (g : String → Int)
    (hdot : ∀ a ∈ listing fs path, hidden a = false)
    (hfit : ∀ a ∈ listing fs path, sprintf_bytes path a ≤ 128)
    (hsub : ∀ a ∈ listing fs path, tally fs n (child path a) = some (g a))
    (hsum : ((listing fs path).map g).sum ≤ int_max) :
    tally fs (n + 1) path = some (((listing fs path).map g).sum) := by
  unfold tally
  cases hp : fs.opendir path with
  | none => simp [listing, hp]
  | some entries =>
    have hl : listing fs path = entries := by simp [listing, hp]
    rw [hl] at hdot hfit hsub hsum ⊢
    simp only
    rw [visible_of_no_dot entries hdot]
    have hso : sum_opt (entries.map (fun name => (sprintf path name).bind (tally fs n))) =
        some ((entries.map g).sum) := by
      apply sum_opt_somes
      intro a ha
      rw [sprintf_of_fits path a (hfit a ha)]
      exact hsub a ha
    rw [hso]
    exact cap_some_of_le _ hsum

theorem count_tiles_exact_of_fits (fs : FS) (root : String)
    (hdot0 : ∀ a ∈ listing fs root, hidden a = false)
    (hdot1 : ∀ a ∈ listing fs root, ∀ b ∈ listing fs (child root a), hidden b = false)
    (hdot2 : ∀ a ∈ listing fs root, ∀ b ∈ listing fs (child root a),
      ∀ c ∈ listing fs (child (child root a) b), hidden c = false)
    (hfit0 : ∀ a ∈ listing fs root, sprintf_bytes root a ≤ 128)
    (hfit1 : ∀ a ∈ listing fs root, ∀ b ∈ listing fs (child root a),
      sprintf_bytes (child root a) b ≤ 128)
    (hint : third_level_entries fs root ≤ int_max) :
    (count_tiles fs root).ret = some (third_level_entries fs root) := by
  rw [count_tiles_ret]
  unfold third_level_entries at hint ⊢
  have hinner : ∀ a, ∀ x ∈ (listing fs (child root a)).map (fun b =>
      ((listing fs (child (child root a) b)).length : Int)), 0 ≤ x := by
    intro a x hx
    obtain ⟨b, _, hb⟩ := List.mem_map.1 hx
    rw [← hb]
    exact Int.natCast_nonneg _
  have houter : ∀ x ∈ (listing fs root).map (fun a =>
      ((listing fs (child root a)).map (fun b =>
        ((listing fs (child (child root a) b)).length : Int))).sum), 0 ≤ x := by
    intro x hx
    obtain ⟨a, _, ha⟩ := List.mem_map.1 hx
    rw [← ha]
    exact List.sum_nonneg (hinner a)
  apply tally_succ_listing fs 1 root _ hdot0 hfit0 _ hint
  intro a ha
  have hga := List.single_le_sum houter _ (List.mem_map_of_mem _ ha)
  apply tally_succ_listing fs 0 (child root a) _ (hdot1 a ha) (hfit1 a ha) _
    (le_trans hga hint)
  intro b hb
  have hgb := List.single_le_sum (hinner a) _
    (List.mem_map_of_mem (fun b => ((listing fs (child (child root a) b)).length : Int)) hb)
  exact tally_zero_listing fs _ (hdot2 a ha b hb) (le_trans hgb (le_trans hga hint))

/-! ## A directory that cannot be opened -/

theorem tally_of_closed (fs : FS) (n : Nat) (path : String) (h : fs.opendir path = none) :
    tally fs n path = some 0 := by
  cases n <;> simp [tally, h]

theorem tally_with_empty_dir (fs : FS) (failing : String) (h : fs.opendir failing = none) :
    ∀ (n : Nat) (path : String), tally (with_empty_dir fs failing) n path = tally fs n path := by
  intro n
  induction n with
  | zero =>
    intro path
    by_cases hp : path = failing
    · subst hp
      simp [tally, with_empty_dir, h, visible, cap, int_max]
    · simp [tally, with_empty_dir, hp]
  | succ n ih =>
    intro path
    by_cases hp : path = failing
    · subst hp
      simp [tally, with_empty_dir, h, visible, sum_opt, cap, int_max]
    · have hf : (fun name => (sprintf path name).bind (tally (with_empty_dir fs failing) n)) =
          fun name => (sprintf path name).bind (tally fs n) := by
        funext name
        congr 1
        funext p
        exact ih p
      have ho : (with_empty_dir fs failing).opendir path = fs.opendir path := by
        simp [with_empty_dir, hp]
      simp only [tally, ho, hf]

theorem count_tiles_with_empty_dir (fs : FS) (root failing : String)
    (h : fs.opendir failing = none) :
    (count_tiles (with_empty_dir fs failing) root).ret = (count_tiles fs root).ret := by
  rw [count_tiles_ret, count_tiles_ret, tally_with_empty_dir fs failing h]

theorem sum_opt_append (l₁ l₂ : List (Option Int)) :
    sum_opt (l₁ ++ l₂) = (sum_opt l₁).bind (fun a => (sum_opt l₂).map (a + ·)) := by
  induction l₁ with
  | nil => cases h : sum_opt l₂ <;> simp [sum_opt, h]
  | cons o l ih =>
    cases o with
    | none => simp [sum_opt]
    | some a =>
      cases h₁ : sum_opt l <;> cases h₂ : sum_opt l₂ <;>
        simp [sum_opt, ih, h₁, h₂, add_assoc]

theorem contrib_nonneg (fs : FS) (path : String) (depth : Int) (name : String) (v : Int)
    (h : contrib path depth (fun q => count_tiles_r fs q (depth + 1)) name = some v) :
    0 ≤ v := by
  unfold contrib at h
  split at h
  · cases h; decide
  · cases hs : sprintf path name with
    | none => rw [hs] at h; cases h
    | some p =>
      rw [hs] at h
      exact (count_tiles_r_range fs p (depth + 1) v h).1

theorem count_tiles_r_ret_of_open (fs : FS) (path : String) (depth : Int)
    (entries : List String) (h : fs.opendir path = some entries) :
    (count_tiles_r fs path depth).ret =
      cap (sum_opt ((visible entries).map
        (contrib path depth (fun q => count_tiles_r fs q (depth + 1))))) := by
  rw [count_tiles_r_of_open fs path depth _ h, finish_ret,
    foldl_step_ret path depth _ (contrib_nonneg fs path depth) entries _ 0 rfl (le_refl _)
      (by decide)]
  congr 1
  cases sum_opt ((visible entries).map
    (contrib path depth (fun q => count_tiles_r fs q (depth + 1)))) <;> simp

theorem open_failure_not_fatal (fs : FS) (path : String) (depth : Int)
    (before after : List String) (name p : String)
    (hopen : fs.opendir path = some (before ++ name :: after))
    (hd : depth < 2) (hp : sprintf path name = some p) (hfail : fs.opendir p = none) :
    count_tiles_r fs p (depth + 1) =
        { ret := some 0
          trace := [Event.call p (depth + 1), Event.opendir p false,
            Event.printf ("Failed to open " ++ p ++ "\n")] } ∧
      (count_tiles_r fs path depth).ret =
        cap (sum_opt ((visible (before ++ after)).map
          (contrib path depth (fun q => count_tiles_r fs q (depth + 1))))) := by
  refine ⟨count_tiles_r_of_closed fs p (depth + 1) hfail, ?_⟩
  have hnd : ¬ depth ≥ 2 := by omega
  rw [count_tiles_r_ret_of_open fs path depth _ hopen]
  congr 1
  have hc : contrib path depth (fun q => count_tiles_r fs q (depth + 1)) name = some 0 := by
    simp [contrib, hnd, hp, count_tiles_r_of_closed fs p (depth + 1) hfail]
  by_cases hh : hidden name = true
  · simp [visible, List.filter_append, hh]
  · have hv : visible (before ++ name :: after) = visible before ++ name :: visible after := by
      simp [visible, List.filter_append, hh]
    have hv' : visible (before ++ after) = visible before ++ visible after := by
      simp [visible, List.filter_append]
    rw [hv, hv', List.map_append, List.map_append, List.map_cons, sum_opt_append,
      sum_opt_append, hc]
    simp [sum_opt]

/-! ## The properties of `count_tiles` -/

theorem count_tiles_scenario :
    (count_tiles (scenario "root") "root").ret = some 3 := by
  simp +decide [count_tiles, count_tiles_r, scenario, child, hidden, sprintf, sprintf_bytes,
    int_add, int_min, int_max]

/-- C1 (evaluation at the failing input): on the scenario tree `root/0/0/0`,
`root/0/0/1`, `root/0/1/0` placed under a root path of 126 bytes, where every
directory of the three levels opens and no name begins with a dot, the third
level holds 3 entries but `count_tiles` does not return 3: building the first
child path stores 129 bytes in the 128-byte `new_path`, and the run has no
defined return value. -/
theorem count_tiles_long_root_overruns :
    third_level_entries (scenario long_root) long_root = 3 ∧
      sprintf_bytes long_root "0" = 129 ∧
      count_tiles (scenario long_root) long_root =
        { ret := none
          trace := [Event.call long_root 0, Event.opendir long_root true,
            Event.readdir long_root (some "0")] } := by
  refine ⟨by decide, by decide, ?_⟩
  exact count_tiles_r_overrun_first (scenario long_root) long_root 0 "0" []
    (by simp [scenario]) (by decide) (by decide) (by decide)

theorem visible_visible (entries : List String) : visible (visible entries) = visible entries := by
  simp [visible, List.filter_filter]

theorem same_visible_without_hidden (fs : FS) :
    ∀ (n : Nat) (path : String), same_visible fs (without_hidden fs) n path := by
  intro n
  induction n with
  | zero =>
    intro path
    simp only [same_visible, without_hidden]
    cases fs.opendir path <;> simp [visible_visible]
  | succ n ih =>
    intro path
    refine ⟨?_, fun name _ => ih (child path name)⟩
    simp only [without_hidden]
    cases fs.opendir path <;> simp [visible_visible]

/-- C2: an entry whose name begins with a dot is neither counted nor descended
into, at depth 0, 1 and 2.  Whenever two file systems show the same non-dot
entries in the root and in every directory reached from it through one or two
non-dot names (as a tree and the same tree with all its dot entries, and what
lies beneath them, removed do), `count_tiles` returns the same on both; in
particular it returns the same once the dot entries are removed from every
listing. -/
theorem hidden_entries_ignored :
    (∀ (fs fs' : FS) (root : String), same_visible fs fs' 2 root →
        (count_tiles fs' root).ret = (count_tiles fs root).ret) ∧
      (∀ (fs : FS) (root : String),
        (count_tiles (without_hidden fs) root).ret = (count_tiles fs root).ret) := by
  constructor
  · intro fs fs' root h
    rw [count_tiles_ret, count_tiles_ret]
    exact tally_same_visible fs fs' 2 root h
  · intro fs root
    rw [count_tiles_ret, count_tiles_ret]
    exact tally_same_visible fs (without_hidden fs) 2 root
      (same_visible_without_hidden fs 2 root)

theorem hidden_entries_ignored_witness :
    (count_tiles (scenario "root") "root").ret = (count_tiles scenario_dotted "root").ret :=
  hidden_entries_ignored.1 scenario_dotted (scenario "root") "root" (by
    simp +decide [same_visible, listing, visible, hidden, scenario, scenario_dotted, child])

/-- C3: when the root directory cannot be opened, `count_tiles` returns 0 and
its only steps are the failed `opendir` and one `printf` of the line
`Failed to open <root>`; no `readdir` takes place. -/
theorem count_tiles_root_not_opened (fs : FS) (root : String)
    (h : fs.opendir root = none) :
    count_tiles fs root =
      { ret := some 0
        trace := [Event.call root 0, Event.opendir root false,
          Event.printf ("Failed to open " ++ root ++ "\n")] } :=
  count_tiles_r_of_closed fs root 0 h

theorem count_tiles_root_not_opened_witness :
    count_tiles (scenario "root") "elsewhere" =
      { ret := some 0
        trace := [Event.call "elsewhere" 0, Event.opendir "elsewhere" false,
          Event.printf "Failed to open elsewhere\n"] } :=
  count_tiles_root_not_opened (scenario "root") "elsewhere" (by decide)

/-- C6: the value `count_tiles` returns does not depend on the order in which
`readdir` yields the entries: if every directory of `fs'` lists the entries of
the same directory of `fs` in some other order, the result is the same. -/
theorem count_tiles_order_independent (fs fs' : FS) (root : String)
    (h : ∀ p, perm_listing (fs.opendir p) (fs'.opendir p)) :
    (count_tiles fs' root).ret = (count_tiles fs root).ret := by
  rw [count_tiles_ret, count_tiles_ret]
  exact tally_perm fs fs' h 2 root

theorem count_tiles_order_independent_witness :
    (count_tiles scenario_reversed "root").ret = (count_tiles (scenario "root") "root").ret :=
  count_tiles_order_independent (scenario "root") scenario_reversed "root" (by
    intro p
    simp only [scenario, scenario_reversed, child]
    split_ifs <;> simp_all +decide [perm_listing, List.Perm.swap])

/-- C7 (evaluation at the failing input): the root `r` holds a regular file
whose name has 126 bytes, followed by the directory `0` with the two tiles
`r/0/0/a` and `r/0/0/b`.  The file cannot be opened as a directory, yet it
does not contribute 0 and one diagnostic line: building its path stores 129
bytes in the 128-byte `new_path` before `opendir` is reached, and the run has
no defined return value, while the same tree with a short file name gives 2. -/
theorem count_tiles_long_file_overruns :
    tree_with_long_file.opendir (child "r" long_name) = none ∧
      sprintf_bytes "r" long_name = 129 ∧
      count_tiles tree_with_long_file "r" =
        { ret := none
          trace := [Event.call "r" 0, Event.opendir "r" true,
            Event.readdir "r" (some long_name)] } ∧
      (count_tiles tree_with_file "r").ret = some 2 := by
  refine ⟨by decide, by decide, ?_, ?_⟩
  · exact count_tiles_r_overrun_first tree_with_long_file "r" 0 long_name ["0"]
      (by decide) (by decide) (by decide) (by decide)
  · simp +decide [count_tiles, count_tiles_r, tree_with_file, hidden, sprintf, sprintf_bytes,
      int_add, int_min, int_max]

/-- C8 (evaluation at the failing input): for the parent path `tiles` and the
non-hidden entry name of 126 bytes met at depth 0, `sprintf` stores 133 bytes
in the 128-byte `new_path`; no path is passed on to a recursive call. -/
theorem sprintf_overruns_new_path :
    hidden long_name = false ∧
      sprintf_bytes "tiles" long_name = 133 ∧
      sprintf "tiles" long_name = none ∧
      count_tiles tree_with_long_dir "tiles" =
        { ret := none
          trace := [Event.call "tiles" 0, Event.opendir "tiles" true,
            Event.readdir "tiles" (some long_name)] } := by
  refine ⟨by decide, by decide, by decide, ?_⟩
  exact count_tiles_r_overrun_first tree_with_long_dir "tiles" 0 long_name []
    (by decide) (by decide) (by decide) (by decide)

end CountTiles

namespace ReadFile

/-! ## The properties of `readfile` -/

theorem set_length_append {α : Type} (l : List α) (x y : α) :
    (l ++ [x]).set l.length y = l ++ [y] := by
  induction l with
  | nil => rfl
  | cons a l ih => simp [List.set, ih]

theorem fresh_block (heap : Nat → UInt8) (n : Nat) :
    (List.range (n + 1)).map heap = (List.range n).map heap ++ [heap n] := by
  rw [List.range_succ, List.map_append]
  rfl

theorem drop_fresh_block (heap : Nat → UInt8) (n : Nat) :
    ((List.range (n + 1)).map heap).drop n = [heap n] := by
  rw [fresh_block]
  have hlen : ((List.range n).map heap).length = n := by simp
  rw [List.drop_append_of_le_length (by omega)]
  rw [List.drop_of_length_le (by omega)]
  rfl

theorem to_size_t_of_nonneg (x : Int) (h0 : 0 ≤ x) (h : x < 18446744073709551616) :
    to_size_t x = x.toNat := by
  unfold to_size_t
  rw [Int.emod_eq_of_lt h0 h]

theorem malloc_some (w : World) (size : Nat) (block : List UInt8)
    (h : malloc w size = some block) :
    size < 9223372036854775808 ∧ w.malloc_ok size = true ∧
      block = (List.range size).map w.heap := by
  unfold malloc at h
  split at h
  · rename_i hc
    exact ⟨hc.1, hc.2, (Option.some.inj h).symm⟩
  · cases h

theorem malloc_of_ok (w : World) (size : Nat) (h1 : size < 9223372036854775808)
    (h2 : w.malloc_ok size = true) :
    malloc w size = some ((List.range size).map w.heap) := by
  simp [malloc, h1, h2]

/-- The bytes `read` leaves in the fresh block of `n + 1` bytes. -/
theorem readfile_of_block (w : World) (fn : String) (n : Nat)
    (hsize : used_size w fn = (n : Int)) (hmax : n + 1 < 9223372036854775808)
    (hok : w.malloc_ok (n + 1) = true) :
    readfile w fn =
      { ret := some
          ((match (match w.open_ret fn with
              | some fd => (w.read_ret fd n).map (List.take n)
              | none => none) with
            | some bytes => bytes ++ ((List.range (n + 1)).map w.heap).drop bytes.length
            | none => (List.range (n + 1)).map w.heap).set n 0)
        trace :=
          [Event.sys_open fn (match w.open_ret fn with
              | some fd => (fd : Int)
              | none => -1),
            Event.sys_stat fn (w.stat_ret fn).isSome,
            Event.sys_malloc (n + 1) true,
            Event.sys_read (match w.open_ret fn with
              | some fd => (fd : Int)
              | none => -1) n,
            Event.sys_close (match w.open_ret fn with
              | some fd => (fd : Int)
              | none => -1)] } := by
  have hst : (match w.stat_ret fn with
      | some size => (size : Int)
      | none => w.sb_st_size) = (n : Int) := hsize
  have h1 : to_size_t ((n : Int) + 1) = n + 1 := by
    rw [to_size_t_of_nonneg _ (by omega) (by omega)]
    omega
  have h2 : to_size_t (n : Int) = n := by
    rw [to_size_t_of_nonneg _ (by omega) (by omega)]
    omega
  have hnot : ¬ off_t_max ≤ (n : Int) := by
    unfold off_t_max
    omega
  have hneg : ¬ ((n : Int) < 0) := by omega
  unfold readfile
  simp only [hst, hnot, if_false, h1, h2, malloc_of_ok w (n + 1) hmax hok, hneg,
    Int.toNat_ofNat, Option.isSome_some, List.cons_append, List.nil_append]

theorem readfile_ret_none_of_no_block (w : World) (fn : String)
    (h : used_size w fn < 0 ∨ off_t_max ≤ used_size w fn ∨
      malloc w (to_size_t (used_size w fn + 1)) = none) :
    (readfile w fn).ret = none := by
  have hst : (match w.stat_ret fn with
      | some size => (size : Int)
      | none => w.sb_st_size) = used_size w fn := rfl
  unfold readfile
  simp only [hst]
  by_cases hmax : off_t_max ≤ used_size w fn
  · rw [if_pos hmax]
  · rw [if_neg hmax]
    cases hm : malloc w (to_size_t (used_size w fn + 1)) with
    | none => rfl
    | some block =>
      simp only
      rcases h with h | h | h
      · rw [if_pos h]
      · exact absurd h hmax
      · rw [hm] at h; cases h

theorem readfile_returns_iff (w : World) (fn : String)
    (h : (readfile w fn).ret ≠ none) :
    ∃ n : Nat, used_size w fn = (n : Int) ∧ n + 1 < 9223372036854775808 ∧
      w.malloc_ok (n + 1) = true := by
  by_cases h0 : used_size w fn < 0
  · exact absurd (readfile_ret_none_of_no_block w fn (Or.inl h0)) h
  · by_cases hmax : off_t_max ≤ used_size w fn
    · exact absurd (readfile_ret_none_of_no_block w fn (Or.inr (Or.inl hmax))) h
    · cases hm : malloc w (to_size_t (used_size w fn + 1)) with
      | none => exact absurd (readfile_ret_none_of_no_block w fn (Or.inr (Or.inr hm))) h
      | some block =>
        obtain ⟨h1, h2, _⟩ := malloc_some w _ block hm
        unfold off_t_max at hmax
        have hts : to_size_t (used_size w fn + 1) = (used_size w fn).toNat + 1 := by
          rw [to_size_t_of_nonneg _ (by omega) (by omega)]
          omega
        rw [hts] at h1 h2
        exact ⟨(used_size w fn).toNat, by omega, h1, h2⟩

theorem readfile_ret_of_full_read (w : World) (fn : String) (fd size : Nat)
    (content : List UInt8) (hopen : w.open_ret fn = some fd)
    (hstat : w.stat_ret fn = some size) (hblock : malloc w (size + 1) ≠ none)
    (hread : w.read_ret fd size = some content) (hfull : content.length = size) :
    (readfile w fn).ret = some (content ++ [0]) := by
  cases hm : malloc w (size + 1) with
  | none => exact absurd hm hblock
  | some block =>
    obtain ⟨h1, h2, _⟩ := malloc_some w _ block hm
    have hsize : used_size w fn = (size : Int) := by simp [used_size, hstat]
    rw [readfile_of_block w fn size hsize h1 h2]
    simp only [hopen, hread, Option.map_some']
    have htake : content.take size = content := by
      rw [← hfull]; exact List.take_length content
    rw [htake, hfull, drop_fresh_block]
    have := set_length_append content (w.heap size) 0
    rw [hfull] at this
    rw [this]

/-- C4 (counterexample): the empty file `empty` is opened, `stat` reports its
size 0 and `read` transfers all 0 bytes, so `open`, `stat` and `read` succeed in
full; but `malloc(1)` returns `NULL`, the terminator is stored through the null
pointer, and no 1-byte buffer is returned. -/
theorem readfile_out_of_memory :
    out_of_memory_world.open_ret "empty" = some 3 ∧
      out_of_memory_world.stat_ret "empty" = some 0 ∧
      out_of_memory_world.read_ret 3 0 = some [] ∧
      (readfile out_of_memory_world "empty").ret = none := by
  refine ⟨by decide, by decide, by decide, ?_⟩
  apply readfile_ret_none_of_no_block
  right; right
  simp [malloc, out_of_memory_world]

/-- C4 (amended): when `open` and `stat` succeed, the allocation of
`file_size + 1` bytes succeeds and `read` transfers the whole file, `readfile`
returns a buffer of `file_size + 1` bytes whose first `file_size` bytes are the
file's content and whose last byte, at offset `file_size`, is 0: the content
followed by one zero byte. -/
theorem readfile_returns_content (w : World) (fn : String) (fd size : Nat)
    (content : List UInt8) (hopen : w.open_ret fn = some fd)
    (hstat : w.stat_ret fn = some size) (hblock : malloc w (size + 1) ≠ none)
    (hread : w.read_ret fd size = some content) (hfull : content.length = size) :
    ∃ buf, (readfile w fn).ret = some buf ∧ buf.length = size + 1 ∧
      buf.take size = content ∧ buf.get? size = some 0 ∧ buf = content ++ [0] := by
  refine ⟨content ++ [0],
    readfile_ret_of_full_read w fn fd size content hopen hstat hblock hread hfull, ?_, ?_, ?_, rfl⟩
  · simp [hfull]
  · rw [← hfull]; simp
  · rw [← hfull]; simp

theorem readfile_returns_content_witness :
    ∃ buf, (readfile abc_world "abc.txt").ret = some buf ∧ buf.length = 3 + 1 ∧
      buf.take 3 = [97, 98, 99] ∧ buf.get? 3 = some 0 ∧ buf = [97, 98, 99] ++ [0] :=
  readfile_returns_content abc_world "abc.txt" 3 3 [97, 98, 99] (by decide) (by decide)
    (by simp [malloc, abc_world]) (by decide) (by decide)

theorem readfile_empty_file : (readfile empty_world "empty").ret = some [0] :=
  readfile_ret_of_full_read empty_world "empty" 3 0 [] (by decide) (by decide)
    (by simp [malloc, empty_world]) (by decide) (by decide)

theorem readfile_trace_of_return (w : World) (fn : String) (fd : Nat)
    (hopen : w.open_ret fn = some fd) (hret : (readfile w fn).ret ≠ none) :
    (readfile w fn).trace =
      [Event.sys_open fn fd, Event.sys_stat fn (w.stat_ret fn).isSome,
        Event.sys_malloc ((used_size w fn).toNat + 1) true,
        Event.sys_read fd (used_size w fn).toNat, Event.sys_close fd] := by
  obtain ⟨n, hn, h1, h2⟩ := readfile_returns_iff w fn hret
  have htn : (used_size w fn).toNat = n := by omega
  rw [readfile_of_block w fn n hn h1 h2, htn]
  simp only [hopen]

end ReadFile

namespace Usps

/-- C10: each call releases the resource it opens.  In every run of
`count_tiles_r` that returns, the trace replays on the stack of open directory
streams without a mismatch and leaves the stack as it found it: every stream
obtained from a successful `opendir` is closed once, innermost first, within
the call that opened it, whose last step is that `closedir`.  A call whose
`opendir` fails performs no `closedir`.  When `count_tiles` returns, no stream
is open.  Likewise a run of `readfile` that returns closes the descriptor it
got from `open` once, as its last step. -/
theorem resources_released :
    (∀ (fs : CountTiles.FS) (path : String) (depth : Int),
        (CountTiles.count_tiles_r fs path depth).ret ≠ none →
          ∀ s, CountTiles.replay (CountTiles.count_tiles_r fs path depth).trace s = some s) ∧
      (∀ (fs : CountTiles.FS) (path : String) (depth : Int) (entries : List String),
        fs.opendir path = some entries →
        (CountTiles.count_tiles_r fs path depth).ret ≠ none →
          ∃ mid, (CountTiles.count_tiles_r fs path depth).trace =
            CountTiles.Event.call path depth :: CountTiles.Event.opendir path true ::
              (mid ++ [CountTiles.Event.readdir path none, CountTiles.Event.closedir path])) ∧
      (∀ (fs : CountTiles.FS) (path : String) (depth : Int), fs.opendir path = none →
        ∀ p, CountTiles.Event.closedir p ∉ (CountTiles.count_tiles_r fs path depth).trace) ∧
      (∀ (fs : CountTiles.FS) (root : String), (CountTiles.count_tiles fs root).ret ≠ none →
        CountTiles.replay (CountTiles.count_tiles fs root).trace [] = some []) ∧
      (∀ (w : ReadFile.World) (fn : String) (fd : Nat), w.open_ret fn = some fd →
        (ReadFile.readfile w fn).ret ≠ none →
          ∃ mid, (ReadFile.readfile w fn).trace =
              ReadFile.Event.sys_open fn fd :: (mid ++ [ReadFile.Event.sys_close fd]) ∧
            ∀ e ∈ mid, ∀ x, e ≠ ReadFile.Event.sys_close x) := by
  refine ⟨?_, ?_, ?_, ?_, ?_⟩
  · intro fs path depth h
    exact CountTiles.count_tiles_r_balanced_any fs path depth h
  · intro fs path depth entries hopen hret
    exact CountTiles.count_tiles_r_trace_of_return fs path depth entries hopen hret
  · intro fs path depth h p hmem
    rw [CountTiles.count_tiles_r_of_closed fs path depth h] at hmem
    simp at hmem
  · intro fs root h
    exact CountTiles.count_tiles_r_balanced_any fs root 0 h []
  · intro w fn fd hopen hret
    refine ⟨[ReadFile.Event.sys_stat fn (w.stat_ret fn).isSome,
      ReadFile.Event.sys_malloc ((ReadFile.used_size w fn).toNat + 1) true,
      ReadFile.Event.sys_read fd (ReadFile.used_size w fn).toNat], ?_, ?_⟩
    · rw [ReadFile.readfile_trace_of_return w fn fd hopen hret]
      rfl
    · intro e he x
      simp only [List.mem_cons, List.mem_singleton, List.not_mem_nil, or_false] at he
      rcases he with h | h | h <;> rw [h] <;> simp

theorem resources_released_witness :
    CountTiles.replay (CountTiles.count_tiles (CountTiles.scenario "root") "root").trace [] =
        some [] ∧
      CountTiles.Event.closedir "elsewhere" ∉
        (CountTiles.count_tiles_r (CountTiles.scenario "root") "elsewhere" 1).trace ∧
      ∃ mid, (ReadFile.readfile ReadFile.abc_world "abc.txt").trace =
          ReadFile.Event.sys_open "abc.txt" (3 : Nat) :: (mid ++ [ReadFile.Event.sys_close (3 : Nat)]) ∧
        ∀ e ∈ mid, ∀ x, e ≠ ReadFile.Event.sys_close x :=
  ⟨resources_released.2.2.2.1 (CountTiles.scenario "root") "root" (by
      rw [CountTiles.count_tiles_scenario]; exact Option.noConfusion),
    resources_released.2.2.1 (CountTiles.scenario "root") "elsewhere" 1 (by decide) "elsewhere",
    resources_released.2.2.2.2 ReadFile.abc_world "abc.txt" 3 (by decide) (by
      rw [ReadFile.readfile_ret_of_full_read ReadFile.abc_world "abc.txt" 3 3
        [97, 98, 99] (by decide) (by decide) (by simp [ReadFile.malloc, ReadFile.abc_world])
        (by decide) (by decide)]
      exact Option.noConfusion)⟩

end Usps
